import Mathlib

/-!
Verification of the Agora live-debate session engine (`server.py`) and the
static debate generator (`generate.py`).

Each definition below is a shallow embedding of the corresponding Python
function or code fragment.  Machine-level concerns that the properties do not
depend on (wall-clock pacing delays, thread scheduling, the actual HTTP layer)
are elided; everything the claims quantify over (queue contents, listener
inboxes, history tagging, color assignment, topic bookkeeping) is modelled
directly from the source.
-/

namespace Agora

/-! ### Word streaming (`stream_ai_message`, server.py 119-150)

`stream_ai_message` computes `words = text.split()` and emits one `word`
event per element, then appends a Message whose `text` field is the original
`text` verbatim.  Python `str.split()` splits on runs of whitespace and drops
empty fragments.  Texts are modelled as `List Char`. -/

/-- Whitespace characters recognized by Python `str.split()` and
`str.strip()` on `str` values (the CPython `Py_UNICODE_ISSPACE` set):
`\t \n \v \f \r` (0x09-0x0D), the ASCII separators 0x1C-0x1F, space,
next line 0x85, no-break space 0xA0, and the Unicode space, line and
paragraph separators 0x1680, 0x2000-0x200A, 0x2028, 0x2029, 0x202F,
0x205F, 0x3000. -/
def pyIsSpace (c : Char) : Bool :=
  (0x09 ≤ c.toNat && c.toNat ≤ 0x0D) ||
  (0x1C ≤ c.toNat && c.toNat ≤ 0x1F) ||
  c.toNat = 0x20 || c.toNat = 0x85 || c.toNat = 0xA0 || c.toNat = 0x1680 ||
  (0x2000 ≤ c.toNat && c.toNat ≤ 0x200A) ||
  c.toNat = 0x2028 || c.toNat = 0x2029 || c.toNat = 0x202F ||
  c.toNat = 0x205F || c.toNat = 0x3000

/-- Split on every single whitespace character, keeping empty fragments. -/
def splitChar (l : List Char) : List (List Char) :=
  l.foldr
    (fun c acc =>
      if pyIsSpace c then [] :: acc
      else
        match acc with
        | [] => [[c]]
        | w :: ws => (c :: w) :: ws)
    [[]]

/-- Python `text.split()`: split on whitespace runs, dropping empty fragments. -/
def splitWs (l : List Char) : List (List Char) :=
  (splitChar l).filter (fun w => !w.isEmpty)

/-- Join word tokens with single spaces (the client-side reconstruction of a
streamed message from its `word` events, in emission order). -/
def joinWords : List (List Char) → List Char
  | [] => []
  | [w] => w
  | w :: ws => w ++ ' ' :: joinWords ws

/-- Observable output of `stream_ai_message` for a given utterance text:
the sequence of `word` event payloads and the `text` field of the finalized
Message appended to `state["messages"]` (server.py 132-141). -/
structure StreamOut where
  wordEvents : List (List Char)
  finalText : List Char
deriving DecidableEq

/-- server.py 119-150: `words = text.split()`; one `word` event per token;
the finalized Message stores the original `text` unchanged. -/
def stream_ai_message (text : List Char) : StreamOut :=
  ⟨splitWs text, text⟩

theorem splitChar_ne_nil (l : List Char) : splitChar l ≠ [] := by
  induction l with
  | nil => simp [splitChar]
  | cons c l ih =>
    simp only [splitChar, List.foldr_cons]
    by_cases h : pyIsSpace c
    · simp [h]
    · simp only [h, if_false]
      rcases hsc : (splitChar l) with _ | ⟨w, ws⟩
      · exact absurd hsc ih
      · simp only [splitChar] at hsc
        rw [hsc]
        simp

theorem splitChar_cons_space (c : Char) (l : List Char) (h : pyIsSpace c = true) :
    splitChar (c :: l) = [] :: splitChar l := by
  simp [splitChar, h]

theorem splitChar_cons_nonspace (c : Char) (l : List Char) (h : pyIsSpace c = false) :
    ∃ w ws, splitChar l = w :: ws ∧ splitChar (c :: l) = (c :: w) :: ws := by
  rcases hsc : (splitChar l) with _ | ⟨w, ws⟩
  · exact absurd hsc (splitChar_ne_nil l)
  · refine ⟨w, ws, rfl, ?_⟩
    simp only [splitChar, List.foldr_cons, h, if_false]
    simp only [splitChar] at hsc
    rw [hsc]
    simp

theorem splitChar_append_word (w l : List Char) (hw : ∀ c ∈ w, pyIsSpace c = false) :
    ∃ v vs, splitChar l = v :: vs ∧ splitChar (w ++ l) = (w ++ v) :: vs := by
  induction w with
  | nil =>
    rcases hsc : (splitChar l) with _ | ⟨v, vs⟩
    · exact absurd hsc (splitChar_ne_nil l)
    · exact ⟨v, vs, rfl, by simpa using hsc⟩
  | cons c w ih =>
    obtain ⟨v, vs, h1, h2⟩ := ih (fun d hd => hw d (List.mem_cons_of_mem c hd))
    have hc : pyIsSpace c = false := hw c (List.mem_cons_self c w)
    obtain ⟨v', vs', h3, h4⟩ := splitChar_cons_nonspace c (w ++ l) hc
    rw [h2] at h3
    obtain ⟨rfl, rfl⟩ : w ++ v = v' ∧ vs = vs' := by
      constructor <;> [exact (List.cons.injEq _ _ _ _ ▸ h3).1; exact (List.cons.injEq _ _ _ _ ▸ h3).2]
    exact ⟨v, vs, h1, by simpa using h4⟩

/-- A list of nonempty whitespace-free words is recovered exactly by
splitting its single-space joining. -/
theorem splitWs_joinWords (ws : List (List Char))
    (h : ∀ w ∈ ws, w ≠ [] ∧ ∀ c ∈ w, pyIsSpace c = false) :
    splitWs (joinWords ws) = ws := by
  induction ws with
  | nil => simp [splitWs, joinWords, splitChar]
  | cons w ws ih =>
    obtain ⟨hwne, hwsp⟩ := h w (List.mem_cons_self w ws)
    have hwe : w.isEmpty = false := by
      cases w with
      | nil => exact absurd rfl hwne
      | cons c cs => rfl
    rcases ws with _ | ⟨x, ws'⟩
    · obtain ⟨v, vs, h1, h2⟩ := splitChar_append_word w [] hwsp
      simp only [splitChar] at h1
      obtain ⟨rfl, rfl⟩ : v = ([] : List Char) ∧ vs = ([] : List (List Char)) := by
        constructor <;> [exact (List.cons.injEq _ _ _ _ ▸ h1.symm).1; exact (List.cons.injEq _ _ _ _ ▸ h1.symm).2]
      simp only [joinWords]
      rw [splitWs, show w = w ++ [] by simp, h2]
      simp [List.filter, hwe]
    · have hjw : joinWords (w :: x :: ws') = w ++ ' ' :: joinWords (x :: ws') := rfl
      obtain ⟨v, vs, h1, h2⟩ := splitChar_append_word w (' ' :: joinWords (x :: ws')) hwsp
      rw [splitChar_cons_space ' ' _ (by decide)] at h1
      obtain ⟨rfl, rfl⟩ : v = ([] : List Char) ∧ vs = splitChar (joinWords (x :: ws')) := by
        constructor <;> [exact (List.cons.injEq _ _ _ _ ▸ h1.symm).1; exact (List.cons.injEq _ _ _ _ ▸ h1.symm).2]
      rw [hjw, splitWs, h2]
      have ihx := ih (fun u hu => h u (List.mem_cons_of_mem w hu))
      simp only [splitWs] at ihx
      simp [List.filter, hwe, ihx]

/-- Claim C2, counterexample.  For the utterance text `"a  b"` (internal
double space), concatenating the `word` event payloads with single spaces
yields `"a b"`, which differs from the text stored in the finalized Message
(`stream_ai_message` stores the original text verbatim, server.py 136-141).
So the round-trip property as claimed fails for this text. -/
theorem C2_stream_roundtrip_cex :
    joinWords (stream_ai_message ['a', ' ', ' ', 'b']).wordEvents ≠
      (stream_ai_message ['a', ' ', ' ', 'b']).finalText := by
  decide

/-- Claim C2, amended: concatenating the `word` event payloads (in emission
order, separated by single spaces) reproduces the finalized Message text
exactly whenever that text is already a single-space-separated sequence of
nonempty whitespace-free words; in general it reproduces the
whitespace-normalized form of the text rather than the verbatim text. -/
theorem C2_stream_roundtrip (ws : List (List Char))
    (h : ∀ w ∈ ws, w ≠ [] ∧ ∀ c ∈ w, pyIsSpace c = false) :
    joinWords (stream_ai_message (joinWords ws)).wordEvents =
      (stream_ai_message (joinWords ws)).finalText := by
  show joinWords (splitWs (joinWords ws)) = joinWords ws
  rw [splitWs_joinWords ws h]

/-- Claim C2, witness: the amended round-trip at the concrete text `"hi yo"`. -/
theorem C2_stream_roundtrip_witness :
    joinWords (stream_ai_message (joinWords [['h', 'i'], ['y', 'o']])).wordEvents =
      (stream_ai_message (joinWords [['h', 'i'], ['y', 'o']])).finalText :=
  C2_stream_roundtrip [['h', 'i'], ['y', 'o']] (by decide)

/-! ### Responder selection (`engine`, server.py 187-188, 217-230, 267-270)

The engine keeps `turn` (auto-debate alternation index), a list of produced
AI utterances, and `last_responder_idx`, initialized to `-1` and assigned
only inside the respond-to-human branch (server.py 227-230).  Auto turns
(server.py 268-269) speak `chars[turn % 2]` and do not touch
`last_responder_idx`.  The random `random.randint(0, 1)` draw is modelled as
an explicit `coin` input. -/

/-- server.py 227: `idx = 1 - last_responder_idx if last_responder_idx >= 0
else random.randint(0, 1)`.  `coin` is the value of the random draw. -/
def pickResponderIdx (lastResponderIdx : Int) (coin : Nat) : Nat :=
  if 0 ≤ lastResponderIdx then (1 - lastResponderIdx).toNat else coin

/-- Engine state relevant to responder selection: the auto-turn index, the
last human-response responder (`-1` when none yet), and the persona indices
of all AI utterances produced so far, in order. -/
structure DebateState where
  turn : Nat
  lastResponderIdx : Int
  aiSpeakers : List Nat
deriving DecidableEq

/-- Initial engine state (server.py 160, 188). -/
def initDebate : DebateState := ⟨0, -1, []⟩

/-- One engine iteration that produces an utterance: either an auto AI-to-AI
turn, or a response to a human message (with its random coin). -/
inductive EngineEv where
  | auto : EngineEv
  | human : Nat → EngineEv
deriving DecidableEq

/-- server.py: an auto turn speaks `chars[turn % 2]` and increments `turn`
(268-269, 322); a human response speaks `chars[idx]` with `idx` from
`pickResponderIdx` and records it in `last_responder_idx` (227-230).  Neither
branch touches the other's bookkeeping. -/
def engStep (s : DebateState) : EngineEv → DebateState
  | .auto => { s with aiSpeakers := s.aiSpeakers ++ [s.turn % 2], turn := s.turn + 1 }
  | .human coin =>
      { s with aiSpeakers := s.aiSpeakers ++ [pickResponderIdx s.lastResponderIdx coin],
               lastResponderIdx := Int.ofNat (pickResponderIdx s.lastResponderIdx coin) }

/-- Run the engine from its initial state over a sequence of utterance-producing
iterations. -/
def engRun (evs : List EngineEv) : DebateState :=
  evs.foldl engStep initDebate

/-- Claim C1, counterexample.  After one auto turn, persona `0` has produced
the immediately preceding AI utterance, yet `last_responder_idx` is still
`-1`, so a human message answered with random draw `0` is answered by persona
`0` again: the trace `[auto, human 0]` yields consecutive AI utterances
`[0, 0]`.  The claimed never-the-same-as-the-preceding-AI-utterance property
is therefore false on the code. -/
theorem C1_responder_cex :
    (engRun [EngineEv.auto]).aiSpeakers = [0] ∧
    (engRun [EngineEv.auto]).lastResponderIdx = -1 ∧
    (engRun [EngineEv.auto, EngineEv.human 0]).aiSpeakers = [0, 0] := by
  decide

/-- Claim C1, amended: the responder to a human message is never the persona
that answered the most recent previous human message, whenever such a
previous human response exists (`last_responder_idx ≥ 0`); when none exists
the responder is the uniform random draw — even if a preceding AI auto-turn
utterance exists, which the selection ignores. -/
theorem C1_responder_alternation (s : DebateState) (coin : Nat) :
    (∀ i : Nat, s.lastResponderIdx = Int.ofNat i → i ≤ 1 →
       pickResponderIdx s.lastResponderIdx coin = 1 - i ∧
       pickResponderIdx s.lastResponderIdx coin ≠ i) ∧
    (s.lastResponderIdx = -1 → pickResponderIdx s.lastResponderIdx coin = coin) := by
  constructor
  · intro i hi hle
    rw [hi]
    unfold pickResponderIdx
    interval_cases i <;> simp
  · intro hneg
    rw [hneg]
    unfold pickResponderIdx
    simp

/-- Claim C1, witness: with previous human responder `1` the next responder is
`0`; with no previous human responder the responder is the coin draw. -/
theorem C1_responder_alternation_witness :
    pickResponderIdx (DebateState.mk 3 (Int.ofNat 1) [1]).lastResponderIdx 0 = 1 - 1 ∧
    pickResponderIdx (DebateState.mk 0 (-1) []).lastResponderIdx 1 = 1 :=
  ⟨((C1_responder_alternation ⟨3, Int.ofNat 1, [1]⟩ 0).1 1 rfl (by decide)).1,
   (C1_responder_alternation ⟨0, -1, []⟩ 1).2 rfl⟩

/-! ### Conversation history role tagging

server.py keeps a SINGLE `history` list shared by both personas; each
finalized utterance is appended with
`"role": "assistant" if turn % 2 == 0 else "user"` (server.py 144-147),
where the `turn` argument always equals the index of the persona that spoke
(`chars[turn % 2]` for auto turns, `chars[idx]` with argument `idx` for human
responses).  That same list is passed unchanged to `llm` for whichever
persona speaks next (server.py 85-88, 257, 319).

generate.py instead keeps one history per persona: after each utterance the
speaker's own history gets `is_self: True` and the opponent's gets
`is_self: False` (generate.py 121-122, 134-135), and `call_llm` maps
`is_self` to role `"assistant"` and the rest to `"user"` (generate.py 66). -/

/-- Chat-completion role of a history entry. -/
inductive Role where
  | assistant : Role
  | user : Role
deriving DecidableEq

/-- server.py 145: the role stored in the shared history for the utterance
whose `turn` argument is `t` (the speaker is `chars[t % 2]`). -/
def serverRoleTag (t : Nat) : Role :=
  if t % 2 = 0 then .assistant else .user

/-- generate.py 66: `"assistant" if msg["is_self"] else "user"`. -/
def callLLMRole (isSelf : Bool) : Role :=
  if isSelf then .assistant else .user

/-- generate.py 120-122 and 133-135: after the persona with index `s` speaks
`txt`, the history of persona 0 (Nova) gets the entry with
`is_self = (s is Nova)` and the history of persona 1 (Axiom) gets the entry
with `is_self = (s is Axiom)`. -/
def genAppend (s : Nat) (novaHist axiomHist : List (Bool × String)) (txt : String) :
    List (Bool × String) × List (Bool × String) :=
  if s % 2 = 0 then (novaHist ++ [(true, txt)], axiomHist ++ [(false, txt)])
  else (novaHist ++ [(false, txt)], axiomHist ++ [(true, txt)])

/-- Claim C3, counterexample.  In server.py the shared history tags the
utterance produced at turn argument `1` — i.e. spoken by persona `chars[1]` —
with role `"user"`.  When `chars[1]` itself consumes that history for its
next prompt, its own past utterance is thus NOT tagged as self
(`"assistant"`): the claimed correct self/peer tagging for both personas
fails for persona `chars[1]`. -/
theorem C3_history_tagging_cex :
    ¬ (serverRoleTag 1 = Role.assistant ↔ 1 % 2 = 1) := by
  decide

/-- Claim C3, amended: the single shared history of server.py tags an
utterance as `"assistant"` exactly when it was spoken by persona `chars[0]`
(turn argument even), i.e. the tagging is correct from persona `chars[0]`'s
perspective only and inverted for persona `chars[1]`; the per-persona
histories of generate.py, by contrast, do carry correct self/peer tagging for
both personas (`is_self` holds exactly for the speaker's own entries, and
`call_llm` maps `is_self` to role `"assistant"`). -/
theorem C3_history_tagging :
    (∀ t : Nat, serverRoleTag t = Role.assistant ↔ t % 2 = 0) ∧
    (∀ b : Bool, callLLMRole b = Role.assistant ↔ b = true) ∧
    (∀ (s : Nat) (nh ah : List (Bool × String)) (txt : String),
       (genAppend s nh ah txt).1 = nh ++ [(decide (s % 2 = 0), txt)] ∧
       (genAppend s nh ah txt).2 = ah ++ [(decide (s % 2 = 1), txt)]) := by
  refine ⟨fun t => ?_, fun b => ?_, fun s nh ah txt => ?_⟩
  · unfold serverRoleTag
    by_cases h : t % 2 = 0 <;> simp [h]
  · unfold callLLMRole
    cases b <;> simp
  · unfold genAppend
    rcases Nat.mod_two_eq_zero_or_one s with h | h <;> simp [h]

/-! ### Broadcast bus (`class Bus`, server.py 42-74)

A listener is a `queue.Queue(maxsize=400)` (server.py 48).  `emit` does
`put_nowait` on every listener queue — a total, non-blocking operation that
raises `queue.Full` exactly when the queue already holds 400 items — collects
the full queues in `dead`, and removes them from the listener list inside the
same call (server.py 63-72).  A listener is modelled by its current inbox
occupancy `pending` and the ordered list `received` of every event ever
enqueued to it; the consumer side (`q.get`, server.py 422) only decrements
occupancy.  Events are modelled by `Nat` tags. -/

/-- `queue.Queue(maxsize=400)` capacity (server.py 48). -/
def BUS_CAP : Nat := 400

/-- One subscribed listener queue: an identity, its current inbox occupancy,
and the full sequence of events enqueued to it so far, in order. -/
structure Listener where
  id : Nat
  pending : Nat
  received : List Nat
deriving DecidableEq

namespace Bus

/-- server.py 63-72: serialize once, `put_nowait` into every listener queue
(succeeds exactly when occupancy is below capacity), collect the full ones in
`dead`, and remove them from the listener list in the same pass. -/
def emit (ev : Nat) (bs : List Listener) : List Listener :=
  bs.filterMap (fun l =>
    if l.pending < BUS_CAP then
      some { l with pending := l.pending + 1, received := l.received ++ [ev] }
    else none)

/-- server.py 47-51: a fresh bounded queue is appended to the listener list. -/
def listen (i : Nat) (bs : List Listener) : List Listener :=
  bs ++ [{ id := i, pending := 0, received := [] }]

/-- server.py 53-56: idempotent removal of a listener queue. -/
def drop (i : Nat) (bs : List Listener) : List Listener :=
  bs.eraseP (fun l => decide (l.id = i))

/-- server.py 422: the consumer thread of listener `i` dequeues one event
(`q.get`), freeing one inbox slot. -/
def take (i : Nat) (bs : List Listener) : List Listener :=
  bs.map (fun l => if l.id = i then { l with pending := l.pending - 1 } else l)

end Bus

/-- An operation on the bus: a publish, a subscription, an unsubscription, or
a consumer dequeue. -/
inductive BusOp where
  | emit : Nat → BusOp
  | listen : Nat → BusOp
  | drop : Nat → BusOp
  | take : Nat → BusOp
deriving DecidableEq

def applyOp (op : BusOp) (bs : List Listener) : List Listener :=
  match op with
  | .emit ev => Bus.emit ev bs
  | .listen i => Bus.listen i bs
  | .drop i => Bus.drop i bs
  | .take i => Bus.take i bs

/-- Run a sequence of bus operations. -/
def runBus (ops : List BusOp) (bs : List Listener) : List Listener :=
  match ops with
  | [] => bs
  | op :: rest => runBus rest (applyOp op bs)

/-- The events published by a sequence of bus operations, in publish order. -/
def emittedEvents (ops : List BusOp) : List Nat :=
  ops.filterMap (fun op => match op with | .emit ev => some ev | _ => none)

/-- Number of listeners carrying identity `i`. -/
def idCount (i : Nat) (bs : List Listener) : Nat :=
  bs.countP (fun l => decide (l.id = i))

theorem emit_origin {ev : Nat} {bs : List Listener} {l' : Listener}
    (h : l' ∈ Bus.emit ev bs) :
    ∃ a ∈ bs, a.pending < BUS_CAP ∧
      l' = { a with pending := a.pending + 1, received := a.received ++ [ev] } := by
  obtain ⟨a, ha, hfa⟩ := List.mem_filterMap.mp h
  by_cases hp : a.pending < BUS_CAP
  · exact ⟨a, ha, hp, by simp [hp] at hfa; exact hfa.symm⟩
  · simp [hp] at hfa

theorem emit_mem (ev : Nat) {bs : List Listener} {l : Listener}
    (hl : l ∈ bs) (hp : l.pending < BUS_CAP) :
    { l with pending := l.pending + 1, received := l.received ++ [ev] } ∈ Bus.emit ev bs :=
  List.mem_filterMap.mpr ⟨l, hl, by simp [hp]⟩

theorem take_origin {j : Nat} {bs : List Listener} {l' : Listener}
    (h : l' ∈ Bus.take j bs) :
    ∃ a ∈ bs, l'.id = a.id ∧ l'.received = a.received := by
  obtain ⟨a, ha, hfa⟩ := List.mem_map.mp h
  refine ⟨a, ha, ?_, ?_⟩ <;> (rw [← hfa]; by_cases hj : a.id = j <;> simp [hj])

theorem idCount_emit_le (i ev : Nat) (bs : List Listener) :
    idCount i (Bus.emit ev bs) ≤ idCount i bs := by
  unfold idCount Bus.emit
  rw [List.countP_filterMap]
  apply List.countP_mono_left
  intro a _ h
  by_cases hp : a.pending < BUS_CAP
  · simpa [hp] using h
  · simp [hp] at h

theorem idCount_take (i j : Nat) (bs : List Listener) :
    idCount i (Bus.take j bs) = idCount i bs := by
  induction bs with
  | nil => rfl
  | cons x t ih =>
    show idCount i (Bus.take j (x :: t)) = idCount i (x :: t)
    unfold Bus.take at ih ⊢
    rw [List.map_cons]
    simp only [idCount, List.countP_cons] at ih ⊢
    by_cases hj : x.id = j <;> simp [hj, ih]

theorem idCount_drop_le (i j : Nat) (bs : List Listener) :
    idCount i (Bus.drop j bs) ≤ idCount i bs :=
  List.Sublist.countP_le _ (List.eraseP_sublist bs)

theorem idCount_listen (i j : Nat) (bs : List Listener) (h : j ≠ i) :
    idCount i (Bus.listen j bs) = idCount i bs := by
  unfold Bus.listen idCount
  rw [List.countP_append]
  simp [List.countP_cons, h]

theorem two_le_countP {α : Type} {p : α → Bool} {a b : α} :
    ∀ {l : List α}, a ∈ l → b ∈ l → a ≠ b → p a = true → p b = true →
      2 ≤ l.countP p := by
  intro l
  induction l with
  | nil => intro h; exact absurd h (List.not_mem_nil a)
  | cons x t ih =>
    intro ha hb hne hpa hpb
    rw [List.countP_cons]
    rcases List.mem_cons.mp ha with rfl | hat
    · have hbt : b ∈ t := by
        rcases List.mem_cons.mp hb with rfl | hbt
        · exact absurd rfl hne
        · exact hbt
      have h1 : 0 < t.countP p := List.countP_pos_iff.mpr ⟨b, hbt, hpb⟩
      rw [if_pos hpa]
      omega
    · rcases List.mem_cons.mp hb with rfl | hbt
      · have h1 : 0 < t.countP p := List.countP_pos_iff.mpr ⟨a, hat, hpa⟩
        rw [if_pos hpb]
        omega
      · exact le_trans (ih hat hbt hne hpa hpb) (Nat.le_add_right _ _)

theorem eraseP_all_neg {α : Type} {p : α → Bool} :
    ∀ {l : List α}, l.countP p ≤ 1 → ∀ a ∈ l.eraseP p, p a = false := by
  intro l
  induction l with
  | nil => intro _ a h; exact absurd h (List.not_mem_nil a)
  | cons x t ih =>
    intro hc a ha
    by_cases hpx : p x = true
    · rw [List.eraseP_cons_of_pos hpx] at ha
      have h1 : t.countP p = 0 := by
        rw [List.countP_cons, if_pos hpx] at hc
        omega
      have := List.countP_eq_zero.mp h1 a ha
      simpa using this
    · rw [List.eraseP_cons_of_neg hpx] at ha
      have hc' : t.countP p ≤ 1 := by
        rw [List.countP_cons] at hc
        omega
      rcases List.mem_cons.mp ha with rfl | hat
      · simpa using hpx
      · exact ih hc' a hat

theorem mem_eraseP_of_neg' {α : Type} {p : α → Bool} {a : α} :
    ∀ {l : List α}, a ∈ l → p a = false → a ∈ l.eraseP p := by
  intro l
  induction l with
  | nil => intro h; exact absurd h (List.not_mem_nil a)
  | cons x t ih =>
    intro ha hpa
    by_cases hpx : p x = true
    · rw [List.eraseP_cons_of_pos hpx]
      rcases List.mem_cons.mp ha with rfl | hat
      · rw [hpa] at hpx; exact absurd hpx (by simp)
      · exact hat
    · rw [List.eraseP_cons_of_neg hpx]
      rcases List.mem_cons.mp ha with rfl | hat
      · exact List.mem_cons_self a _
      · exact List.mem_cons_of_mem x (ih hat hpa)

/-- A listener identity absent from the bus never reappears unless it
re-subscribes: no later state of any operation sequence without a
`listen i` contains a listener with identity `i`. -/
theorem busRun_absent (i : Nat) :
    ∀ (ops : List BusOp) (bs : List Listener),
      (∀ l ∈ bs, l.id ≠ i) → (∀ op ∈ ops, op ≠ BusOp.listen i) →
      ∀ l' ∈ runBus ops bs, l'.id ≠ i := by
  intro ops
  induction ops with
  | nil => intro bs h _ l' hl'; exact h l' hl'
  | cons op ops ih =>
    intro bs h hops l' hl'
    have hops' : ∀ o ∈ ops, o ≠ BusOp.listen i :=
      fun o ho => hops o (List.mem_cons_of_mem op ho)
    refine ih (applyOp op bs) ?_ hops' l' hl'
    intro a ha
    cases op with
    | emit ev =>
      obtain ⟨x, hx, _, rfl⟩ := emit_origin ha
      exact h x hx
    | listen j =>
      have hji : j ≠ i := by
        intro hji
        exact hops (BusOp.listen j) (List.mem_cons_self _ _) (by rw [hji])
      rcases List.mem_append.mp ha with hx | hx
      · exact h a hx
      · rcases List.mem_cons.mp hx with rfl | hx
        · exact hji
        · exact absurd hx (List.not_mem_nil a)
    | drop j =>
      exact h a (List.mem_of_mem_eraseP ha)
    | take j =>
      obtain ⟨x, hx, hid, _⟩ := take_origin ha
      rw [hid]
      exact h x hx

/-- Core fan-out invariant: a listener with a unique identity that is still
subscribed after a sequence of bus operations (none of which re-subscribes
its identity) has had exactly the published events appended to its inbox
sequence, in publish order. -/
theorem busRun_received :
    ∀ (ops : List BusOp) (bs : List Listener) (l : Listener),
      l ∈ bs → idCount l.id bs ≤ 1 →
      (∀ op ∈ ops, op ≠ BusOp.listen l.id) →
      ∀ l' ∈ runBus ops bs, l'.id = l.id →
        l'.received = l.received ++ emittedEvents ops := by
  intro ops
  induction ops with
  | nil =>
    intro bs l hl hone _ l' hl' hid
    have : l' = l := by
      by_contra hne
      have h2 : 2 ≤ bs.countP (fun x => decide (x.id = l.id)) :=
        two_le_countP hl' hl hne (by simp [hid]) (by simp)
      simp only [idCount] at hone
      omega
    rw [this]
    simp [emittedEvents]
  | cons op ops ih =>
    intro bs l hl hone hops l' hl' hid
    have hops' : ∀ o ∈ ops, o ≠ BusOp.listen l.id :=
      fun o ho => hops o (List.mem_cons_of_mem op ho)
    cases op with
    | emit ev =>
      by_cases hp : l.pending < BUS_CAP
      · have hmem := emit_mem ev hl hp
        have hcnt : idCount l.id (Bus.emit ev bs) ≤ 1 :=
          le_trans (idCount_emit_le l.id ev bs) hone
        have := ih (Bus.emit ev bs)
          { l with pending := l.pending + 1, received := l.received ++ [ev] }
          hmem hcnt hops' l' hl' hid
        rw [this]
        simp [emittedEvents, List.filterMap_cons]
      · exfalso
        have habs : ∀ a ∈ Bus.emit ev bs, a.id ≠ l.id := by
          intro a ha haid
          obtain ⟨x, hx, hxp, rfl⟩ := emit_origin ha
          have hxid : x.id = l.id := haid
          have hxne : x ≠ l := by
            intro hxl
            rw [hxl] at hxp
            omega
          have h2 : 2 ≤ bs.countP (fun y => decide (y.id = l.id)) :=
            two_le_countP hx hl hxne (by simp [hxid]) (by simp)
          simp only [idCount] at hone
          omega
        exact busRun_absent l.id ops (Bus.emit ev bs) habs hops' l' hl' hid
    | listen j =>
      have hji : j ≠ l.id := by
        intro hji
        exact hops (BusOp.listen j) (List.mem_cons_self _ _) (by rw [hji])
      have hmem : l ∈ Bus.listen j bs := List.mem_append_left _ hl
      have hcnt : idCount l.id (Bus.listen j bs) ≤ 1 := by
        rw [idCount_listen l.id j bs hji]; exact hone
      have := ih (Bus.listen j bs) l hmem hcnt hops' l' hl' hid
      rw [this]
      simp [emittedEvents, List.filterMap_cons]
    | drop j =>
      by_cases hj : j = l.id
      · exfalso
        have habs : ∀ a ∈ Bus.drop j bs, a.id ≠ l.id := by
          intro a ha
          have ha' : a ∈ bs.eraseP (fun x => decide (x.id = j)) := ha
          have hle : bs.countP (fun x => decide (x.id = j)) ≤ 1 := by
            subst hj
            simpa [idCount] using hone
          have hneg := eraseP_all_neg hle a ha'
          simp at hneg
          rw [← hj]
          exact hneg
        exact busRun_absent l.id ops (Bus.drop j bs) habs hops' l' hl' hid
      · have hmem : l ∈ Bus.drop j bs :=
          mem_eraseP_of_neg' hl (by simp; exact fun h => hj h.symm)
        have hcnt : idCount l.id (Bus.drop j bs) ≤ 1 :=
          le_trans (idCount_drop_le l.id j bs) hone
        have := ih (Bus.drop j bs) l hmem hcnt hops' l' hl' hid
        rw [this]
        simp [emittedEvents, List.filterMap_cons]
    | take j =>
      have hmem : (if l.id = j then { l with pending := l.pending - 1 } else l)
          ∈ Bus.take j bs := List.mem_map_of_mem _ hl
      have hides : (if l.id = j then { l with pending := l.pending - 1 } else l).id = l.id ∧
          (if l.id = j then { l with pending := l.pending - 1 } else l).received = l.received := by
        by_cases hj : l.id = j <;> simp [hj]
      have hcnt : idCount l.id (Bus.take j bs) ≤ 1 := by
        rw [idCount_take]; exact hone
      have := ih (Bus.take j bs) _ hmem (by rw [hides.1]; exact hcnt) ?_ l' hl' (by rw [hides.1]; exact hid)
      · rw [this, hides.2]
        simp [emittedEvents, List.filterMap_cons]
      · rw [hides.1]; exact hops'

/-- Claim C4: on a publish (`Bus.emit`), a listener whose bounded inbox is
full at that call is removed from the listener set during that same publish
pass (and, its identity never re-subscribing, appears in no later state, so
it receives no further events), while every listener with a free slot —
in particular every other, non-full listener — has exactly that event
enqueued.  The publisher itself is a total function of the listener list
(`put_nowait` on each inbox): it never blocks waiting on any listener. -/
theorem C4_publish_full_listener_removed (ev : Nat) (bs : List Listener) (l : Listener)
    (hl : l ∈ bs) :
    (BUS_CAP ≤ l.pending → idCount l.id bs ≤ 1 →
       (∀ l' ∈ Bus.emit ev bs, l'.id ≠ l.id) ∧
       (∀ ops : List BusOp, (∀ op ∈ ops, op ≠ BusOp.listen l.id) →
          ∀ l' ∈ runBus ops (Bus.emit ev bs), l'.id ≠ l.id)) ∧
    (l.pending < BUS_CAP →
       { l with pending := l.pending + 1, received := l.received ++ [ev] } ∈ Bus.emit ev bs) := by
  constructor
  · intro hfull hone
    have habs : ∀ l' ∈ Bus.emit ev bs, l'.id ≠ l.id := by
      intro a ha haid
      obtain ⟨x, hx, hxp, rfl⟩ := emit_origin ha
      have hxid : x.id = l.id := haid
      have hxne : x ≠ l := by
        intro hxl
        rw [hxl] at hxp
        omega
      have h2 : 2 ≤ bs.countP (fun y => decide (y.id = l.id)) :=
        two_le_countP hx hl hxne (by simp [hxid]) (by simp)
      simp only [idCount] at hone
      omega
    exact ⟨habs, fun ops hops => busRun_absent l.id ops (Bus.emit ev bs) habs hops⟩
  · intro hp
    exact emit_mem ev hl hp

/-- Claim C4, witness: with two subscribed listeners, one full (inbox
occupancy 400) and one with space, publishing event `9` drops the full one —
it is absent from the pass result and from the state after a further publish
— while the other listener has `9` enqueued. -/
theorem C4_publish_full_listener_removed_witness :
    ((Listener.mk 7 4 [9]) ∈ Bus.emit 9 [⟨0, 400, [3]⟩, ⟨7, 3, []⟩] ∧
     (Listener.mk 7 3 []).id ≠ (Listener.mk 0 400 [3]).id) ∧
    ¬ ((Listener.mk 0 401 [3, 9]) ∈ Bus.emit 9 [⟨0, 400, [3]⟩, ⟨7, 3, []⟩]) := by
  refine ⟨⟨?_, by decide⟩, ?_⟩
  · have h := (C4_publish_full_listener_removed 9
      [⟨0, 400, [3]⟩, ⟨7, 3, []⟩] ⟨7, 3, []⟩ (by simp)).2 (by norm_num [BUS_CAP])
    simpa using h
  · intro hmem
    have h := ((C4_publish_full_listener_removed 9
      [⟨0, 400, [3]⟩, ⟨7, 3, []⟩] ⟨0, 400, [3]⟩
      (by simp)).1 (by norm_num [BUS_CAP]) (by simp [idCount])).1
      ⟨0, 401, [3, 9]⟩ hmem
    simp at h

/-- Claim C5: for any sequence of bus operations, a listener subscribed
before the first publish whose identity is unique on the bus and never
re-subscribed, and which is still subscribed at the end (never dropped),
has received exactly the published events, in publish order. -/
theorem C5_publish_order_preserved (ops : List BusOp) (bs : List Listener) (l : Listener)
    (hl : l ∈ bs) (hfresh : l.received = [])
    (hone : idCount l.id bs ≤ 1)
    (hnl : ∀ op ∈ ops, op ≠ BusOp.listen l.id) :
    ∀ l' ∈ runBus ops bs, l'.id = l.id → l'.received = emittedEvents ops := by
  intro l' h1 h2
  have h := busRun_received ops bs l hl hone hnl l' h1 h2
  rw [hfresh] at h
  simpa using h

/-- Claim C5, witness: listener `1`, subscribed from the start alongside
listener `2`, receives the three published events `10, 20, 30` in publish
order across interleaved consumer dequeues and the unsubscription of `2`. -/
theorem C5_publish_order_preserved_witness :
    (Listener.mk 1 2 [10, 20, 30]).received =
      emittedEvents [BusOp.emit 10, BusOp.take 1, BusOp.emit 20,
                     BusOp.drop 2, BusOp.emit 30] := by
  have h := C5_publish_order_preserved
    [BusOp.emit 10, BusOp.take 1, BusOp.emit 20, BusOp.drop 2, BusOp.emit 30]
    [⟨1, 0, []⟩, ⟨2, 0, []⟩] ⟨1, 0, []⟩ (by simp) rfl (by simp [idCount])
    (by decide) ⟨1, 2, [10, 20, 30]⟩
  refine h ?_ rfl
  decide

/-! ### Topic rotator (`pick`, server.py 165-171)

`pick()` filters the configured pool down to the topics not in the `used`
set, resets `used` and restores the full pool when that subset is empty,
draws one topic at random from the remaining pool (`random.choice`, modelled
by an arbitrary index `k` reduced modulo the pool size), and records it in
`used`.  The `used` set is modelled by a list with membership semantics. -/

/-- server.py 165-171.  Returns the chosen topic together with the updated
`used` set; `none` only when the configured pool is empty (where
`random.choice([])` would raise). -/
def pick (allTopics : List String) (k : Nat) (used : List String) :
    Option (String × List String) :=
  let avail := allTopics.filter (fun t => decide (t ∉ used))
  let pair := if avail.isEmpty then (allTopics, ([] : List String)) else (avail, used)
  match pair.1[k % pair.1.length]? with
  | some t => some (t, t :: pair.2)
  | none => none

/-- Claim C6: a `pick` call always succeeds on a nonempty pool and returns a
pool topic which is recorded in the updated `used` set; as long as some pool
topic is still unused in the current coverage cycle the returned topic is one
of the unused ones (no repeat before exhaustion); and when every pool topic
has been used, the full pool becomes eligible again and the tracking set
resets to exactly the newly chosen topic. -/
theorem C6_topic_rotation (allTopics used : List String) (k : Nat)
    (hne : allTopics ≠ []) :
    (∃ t used2, pick allTopics k used = some (t, used2)) ∧
    (∀ t used2, pick allTopics k used = some (t, used2) →
       t ∈ allTopics ∧ t ∈ used2 ∧
       ((∃ p ∈ allTopics, p ∉ used) → t ∉ used) ∧
       ((∀ p ∈ allTopics, p ∈ used) → used2 = [t])) := by
  by_cases hav : (allTopics.filter (fun t => decide (t ∉ used))).isEmpty = true
  · have hlen : 0 < allTopics.length := List.length_pos.mpr hne
    have hk : k % allTopics.length < allTopics.length := Nat.mod_lt _ hlen
    have hpick : pick allTopics k used =
        some (allTopics[k % allTopics.length], [allTopics[k % allTopics.length]]) := by
      unfold pick
      dsimp only
      rw [if_pos hav, List.getElem?_eq_getElem hk]
    rw [hpick]
    refine ⟨⟨_, _, rfl⟩, ?_⟩
    intro t used2 heq
    simp only [Option.some.injEq, Prod.mk.injEq] at heq
    obtain ⟨rfl, rfl⟩ := heq
    refine ⟨List.getElem_mem hk, List.mem_cons_self _ _, ?_, fun _ => rfl⟩
    rintro ⟨p, hp, hpu⟩
    exfalso
    have hpm : p ∈ allTopics.filter (fun t => decide (t ∉ used)) :=
      List.mem_filter.mpr ⟨hp, by simpa using hpu⟩
    rw [List.isEmpty_iff.mp hav] at hpm
    exact absurd hpm (List.not_mem_nil p)
  · have hfe : allTopics.filter (fun t => decide (t ∉ used)) ≠ [] := by
      intro h
      rw [h] at hav
      exact hav rfl
    have hlen : 0 < (allTopics.filter (fun t => decide (t ∉ used))).length :=
      List.length_pos.mpr hfe
    have hk : k % (allTopics.filter (fun t => decide (t ∉ used))).length <
        (allTopics.filter (fun t => decide (t ∉ used))).length := Nat.mod_lt _ hlen
    have hpick : pick allTopics k used =
        some ((allTopics.filter (fun t => decide (t ∉ used)))[k % (allTopics.filter (fun t => decide (t ∉ used))).length],
          (allTopics.filter (fun t => decide (t ∉ used)))[k % (allTopics.filter (fun t => decide (t ∉ used))).length] :: used) := by
      unfold pick
      dsimp only
      rw [if_neg hav, List.getElem?_eq_getElem hk]
    rw [hpick]
    refine ⟨⟨_, _, rfl⟩, ?_⟩
    intro t used2 heq
    simp only [Option.some.injEq, Prod.mk.injEq] at heq
    obtain ⟨rfl, rfl⟩ := heq
    have hmf := List.mem_filter.mp (List.getElem_mem hk)
    refine ⟨hmf.1, List.mem_cons_self _ _, fun _ => by simpa using hmf.2, ?_⟩
    intro hall
    exfalso
    exact (by simpa using hmf.2 : _ ∉ used) (hall _ hmf.1)

/-- Claim C6, witness: with pool `["a", "b"]` and `"a"` already used this
cycle, `pick` returns the unused `"b"` and records it. -/
theorem C6_topic_rotation_witness :
    pick ["a", "b"] 0 ["a"] = some ("b", ["b", "a"]) ∧
    ("b" : String) ∈ ["a", "b"] ∧ ("b" : String) ∉ ["a"] := by
  have h := (C6_topic_rotation ["a", "b"] ["a"] 0 (by simp)).2 "b" ["b", "a"] (by decide)
  exact ⟨by decide, h.1, h.2.2.1 ⟨"b", by decide⟩⟩

/-! ### Human-message coalescing (`send` and `engine`, server.py 217-248, 374-404)

`/send` appends the validated user message both to `state["messages"]` and to
`user_queue` (server.py 397-401).  When the engine sees a queued message it
sleeps through the settle delay (during which it produces nothing), drains
every remaining queued message (server.py 222-224), and produces one response
whose instruction embeds `context` — the last 5 rendered lines
(`"name: text"`) of the user/AI messages among the last 8 entries of
`state["messages"]` (server.py 232-239, 248). -/

/-- An entry of `state["messages"]`: its `"type"` discriminator, the speaker
or user display name, and the text. -/
structure Msg where
  mtype : String
  name : String
  text : String
deriving DecidableEq

/-- Python slice `l[-n:]` for `n ≥ 1`: the last `min n (length l)` elements. -/
def lastN {α : Type} (n : Nat) (l : List α) : List α :=
  (l.reverse.take n).reverse

/-- server.py 234-238: a user or AI message renders as `"name: text"`
(`user_name` resp. `speaker`); topic/system entries are skipped. -/
def renderRecent (m : Msg) : Option String :=
  if m.mtype = "user" then some (m.name ++ ": " ++ m.text)
  else if m.mtype = "message" then some (m.name ++ ": " ++ m.text)
  else none

/-- server.py 233-239: `recent_texts` over `state["messages"][-8:]`, then the
last 5 lines joined into `context` (modelled as the list of lines). -/
def contextLines (msgs : List Msg) : List String :=
  lastN 5 ((lastN 8 msgs).filterMap renderRecent)

/-- Engine-visible state for the respond-to-human branch: the inbound queue,
the global message list, and how many responses have been produced. -/
structure BurstState where
  queue : List Msg
  messages : List Msg
  responses : Nat
deriving DecidableEq

/-- server.py 397-401: `/send` appends the message to `state["messages"]`
and enqueues it on `user_queue`. -/
def sendMsg (m : Msg) (s : BurstState) : BurstState :=
  { s with messages := s.messages ++ [m], queue := s.queue ++ [m] }

/-- A burst of human messages arriving (in order) during the settle delay,
while the engine produces nothing. -/
def burstArrive (burst : List Msg) (s : BurstState) : BurstState :=
  burst.foldl (fun s m => sendMsg m s) s

/-- server.py 210-248: if the queue is empty nothing happens; otherwise the
engine drains the entire queue and produces exactly one response, whose
instruction is built from `contextLines` of the current message list. -/
def respondStep (s : BurstState) : BurstState × Option (List String) :=
  if s.queue.isEmpty then (s, none)
  else ({ s with queue := [], responses := s.responses + 1 },
        some (contextLines s.messages))

theorem burstArrive_eq (burst : List Msg) : ∀ s : BurstState,
    burstArrive burst s = ⟨s.queue ++ burst, s.messages ++ burst, s.responses⟩ := by
  induction burst with
  | nil => intro s; simp [burstArrive]
  | cons m t ih =>
    intro s
    show burstArrive t (sendMsg m s) = _
    rw [ih (sendMsg m s)]
    simp [sendMsg]

theorem mem_lastN_of_getLast? {α : Type} {l : List α} {x : α} (n : Nat)
    (h : l.getLast? = some x) (hn : 1 ≤ n) : x ∈ lastN n l := by
  rw [← List.head?_reverse] at h
  rcases hrev : l.reverse with _ | ⟨y, t⟩
  · rw [hrev] at h
    simp at h
  · rw [hrev] at h
    simp only [List.head?_cons, Option.some.injEq] at h
    subst h
    unfold lastN
    rw [hrev]
    rcases n with _ | n
    · omega
    · rw [List.take_succ_cons]
      exact List.mem_reverse.mpr (List.mem_cons_self _ _)

theorem getLast?_lastN {α : Type} (n : Nat) (l : List α) (hn : 1 ≤ n) :
    (lastN n l).getLast? = l.getLast? := by
  unfold lastN
  rw [List.getLast?_reverse, ← List.head?_reverse]
  rcases hrev : l.reverse with _ | ⟨y, t⟩
  · simp
  · rcases n with _ | n
    · omega
    · rw [List.take_succ_cons]
      simp

theorem eq_concat_of_getLast? {α : Type} {l : List α} {x : α}
    (h : l.getLast? = some x) : ∃ v, l = v ++ [x] := by
  rw [← List.head?_reverse] at h
  rcases hrev : l.reverse with _ | ⟨y, t⟩
  · rw [hrev] at h
    simp at h
  · rw [hrev] at h
    simp only [List.head?_cons, Option.some.injEq] at h
    subst h
    refine ⟨t.reverse, ?_⟩
    have hc := congrArg List.reverse hrev
    simpa using hc

theorem mem_contextLines_of_last {msgs : List Msg} {m : Msg} {line : String}
    (hlast : msgs.getLast? = some m) (hr : renderRecent m = some line) :
    line ∈ contextLines msgs := by
  have h8 : (lastN 8 msgs).getLast? = some m := by
    rw [getLast?_lastN 8 msgs (by omega)]
    exact hlast
  obtain ⟨v, hv⟩ := eq_concat_of_getLast? h8
  have hone : List.filterMap renderRecent [m] = [line] := by
    simp [hr]
  have hfm : ((lastN 8 msgs).filterMap renderRecent).getLast? = some line := by
    rw [hv, List.filterMap_append, hone]
    exact List.getLast?_concat _
  exact mem_lastN_of_getLast? 5 hfm (by omega)

/-- Claim C7: when a burst of human messages arrives during one settle delay,
the engine produces exactly one response for the whole burst (the queue is
fully drained, so an immediately following poll produces nothing), and the
context embedded in the instruction handed to the Content Source contains the
rendered line of the most recent message of the burst. -/
theorem C7_burst_coalescing (s0 : BurstState) (burst : List Msg) (m : Msg)
    (hlast : burst.getLast? = some m) (hm : m.mtype = "user") :
    (respondStep (burstArrive burst s0)).1.responses = s0.responses + 1 ∧
    (respondStep (burstArrive burst s0)).1.queue = [] ∧
    (respondStep ((respondStep (burstArrive burst s0)).1)).2 = none ∧
    (respondStep (burstArrive burst s0)).2 =
      some (contextLines (s0.messages ++ burst)) ∧
    (m.name ++ ": " ++ m.text) ∈ contextLines (s0.messages ++ burst) := by
  have hbne : burst ≠ [] := by
    intro h
    rw [h] at hlast
    simp at hlast
  rw [burstArrive_eq]
  have hqne : (s0.queue ++ burst).isEmpty = false := by
    cases hq : (s0.queue ++ burst).isEmpty
    · rfl
    · exact absurd (List.append_eq_nil.mp (List.isEmpty_iff.mp hq)).2 hbne
  have hstep : respondStep ⟨s0.queue ++ burst, s0.messages ++ burst, s0.responses⟩ =
      (⟨[], s0.messages ++ burst, s0.responses + 1⟩,
       some (contextLines (s0.messages ++ burst))) := by
    unfold respondStep
    rw [hqne]
    rfl
  rw [hstep]
  refine ⟨rfl, rfl, ?_, rfl, ?_⟩
  · rfl
  · have hml : (s0.messages ++ burst).getLast? = some m := by
      rw [List.getLast?_append, hlast]
      rfl
    exact mem_contextLines_of_last hml (by simp [renderRecent, hm])

/-- Claim C7, witness: two user messages arrive in one settle window; one
response is produced (a second poll yields none) and its context contains the
later message rendered as `"Bob: yo"`. -/
theorem C7_burst_coalescing_witness :
    (respondStep (burstArrive [⟨"user", "Ana", "hi"⟩, ⟨"user", "Bob", "yo"⟩]
        ⟨[], [], 0⟩)).1.responses = 0 + 1 ∧
    (respondStep ((respondStep (burstArrive [⟨"user", "Ana", "hi"⟩, ⟨"user", "Bob", "yo"⟩]
        ⟨[], [], 0⟩)).1)).2 = none ∧
    (("Bob" ++ ": " ++ "yo") : String) ∈
      contextLines (([] : List Msg) ++ [⟨"user", "Ana", "hi"⟩, ⟨"user", "Bob", "yo"⟩]) := by
  have h := C7_burst_coalescing ⟨[], [], 0⟩
    [⟨"user", "Ana", "hi"⟩, ⟨"user", "Bob", "yo"⟩] ⟨"user", "Bob", "yo"⟩ (by decide) rfl
  exact ⟨h.1, h.2.2.1, h.2.2.2.2⟩

/-! ### Content Source failure handling (`llm` and `engine`, server.py 85-99, 318-335)

`llm` calls the primary model; on any exception it re-enters itself once with
the backup model, and an exception of the backup call propagates (server.py
96-99).  `primary` and `backup` below are the outcomes of the two possible
completion calls (`some` = returned text after post-processing, `none` =
raised).  The engine wraps the turn in `try`: on failure it only clears the
typing indicator — no Message is appended, `on_topic` and `turn` are not
advanced (server.py 318-325) — and then unconditionally schedules the next
iteration (`next_auto = time.time() + wait_time`, server.py 327-335), so the
loop continues as long as the uptime check passes. -/

/-- server.py 13-14. -/
def MODEL : String := "llama-3.1-8b-instant"

def BACKUP : String := "meta-llama/llama-4-scout-17b-16e-instruct"

/-- server.py 85-99: result of `llm` together with the list of models
actually attempted, in order. -/
def llm (primary backup : Option String) : Option String × List String :=
  match primary with
  | some t => (some t, [ MODEL ])
  | none => (backup, [ MODEL, BACKUP ])

/-- Engine state mutated by one auto-debate turn (server.py 318-325). -/
structure EngState where
  messages : List Msg
  on_topic : Nat
  turn : Nat
  typing : Option String
deriving DecidableEq

/-- server.py 318-325: on success the Message is appended and the counters
advance inside `stream_ai_message`/the `try` block; on failure (`except`)
only the typing indicator is cleared. -/
def autoTurnStep (outcome : Option String) (cur : String) (s : EngState) : EngState :=
  match outcome with
  | some text =>
      { s with messages := s.messages ++ [⟨"message", cur, text⟩],
               on_topic := s.on_topic + 1, turn := s.turn + 1, typing := none }
  | none => { s with typing := none }

/-- One engine loop iteration at a boundary with `timeLeft` seconds
remaining: `none` means the `while tleft() > 60` guard stopped the loop;
otherwise the turn runs and the loop continues (server.py 190, 318-335). -/
def engineIter (timeLeft : Nat) (outcome : Option String) (cur : String)
    (s : EngState) : Option EngState :=
  if 60 < timeLeft then some (autoTurnStep outcome cur s) else none

/-- Claim C8: when the primary Content Source call fails, exactly one retry
is made, against the backup source (the attempted-model list is precisely
`[ MODEL, BACKUP ]`), and the result is the backup outcome; when the backup
also fails, the turn leaves the message list, the per-topic counter and the
turn index unchanged, and the engine iteration still yields a next state
(the loop continues) rather than terminating the session. -/
theorem C8_failure_retry_no_advance (b : Option String) (cur : String)
    (s : EngState) (tl : Nat) (h : 60 < tl) :
    (llm none b).2 = [ MODEL, BACKUP ] ∧
    (llm none b).1 = b ∧
    (autoTurnStep (llm none none).1 cur s).messages = s.messages ∧
    (autoTurnStep (llm none none).1 cur s).on_topic = s.on_topic ∧
    (autoTurnStep (llm none none).1 cur s).turn = s.turn ∧
    engineIter tl (llm none none).1 cur s = some (autoTurnStep none cur s) := by
  refine ⟨rfl, rfl, rfl, rfl, rfl, ?_⟩
  unfold engineIter
  rw [if_pos h]
  rfl

/-- Claim C8, witness: the double-failure turn at a concrete engine state
with 100 seconds remaining. -/
theorem C8_failure_retry_no_advance_witness :
    (llm none none).2 = [ MODEL, BACKUP ] ∧
    (autoTurnStep (llm none none).1 "Nova" ⟨[], 4, 7, some "Nova"⟩).messages = [] ∧
    (autoTurnStep (llm none none).1 "Nova" ⟨[], 4, 7, some "Nova"⟩).on_topic = 4 ∧
    engineIter 100 (llm none none).1 "Nova" ⟨[], 4, 7, some "Nova"⟩ =
      some (autoTurnStep none "Nova" ⟨[], 4, 7, some "Nova"⟩) := by
  have h := C8_failure_retry_no_advance none "Nova" ⟨[], 4, 7, some "Nova"⟩ 100 (by omega)
  exact ⟨h.1, h.2.2.1, h.2.2.2.1, h.2.2.2.2.2⟩

/-! ### Shutdown (`engine`, server.py 102-103, 190, 337-344)

The loop guard is `while tleft() > 60` with
`tleft() = max(0, int(MAX_UP - (time.time() - BOOT)))` and `MAX_UP = 21300`;
the guard is evaluated only at loop-iteration boundaries.  After the loop
exits, exactly one `shutdown` event is emitted, carrying the AI-message
count, the topic count, the user-message count and the participant count
(server.py 337-344). -/

/-- server.py 10: the uptime budget in seconds. -/
def MAX_UP : Nat := 21300

/-- server.py 102-103: remaining session seconds after `elapsed` seconds of
uptime (`Nat` subtraction truncates at zero exactly like the `max(0, ...)`). -/
def tleft (elapsed : Nat) : Nat := MAX_UP - elapsed

/-- Events emitted by the engine loop at iteration granularity: a produced
turn, or the final shutdown summary. -/
inductive EngEvent where
  | turn : EngEvent
  | shutdown : Nat → Nat → Nat → Nat → EngEvent
deriving DecidableEq

/-- server.py 338-343: the shutdown payload — AI-message count, topic count,
user-message count, joined-participant count. -/
def shutdownEvent (msgs : List Msg) (topicNum usersCnt : Nat) : EngEvent :=
  .shutdown ((msgs.filter (fun m => decide (m.mtype = "message"))).length)
    topicNum
    ((msgs.filter (fun m => decide (m.mtype = "user"))).length)
    usersCnt

def isShutdown : EngEvent → Bool
  | .shutdown _ _ _ _ => true
  | .turn => false

/-- server.py 190, 337-344: the engine loop over the successive elapsed-time
readings at its iteration boundaries.  Each boundary with more than 60
seconds left runs a turn; the first boundary at 60 or below exits the loop
and emits the single shutdown event.  An exhausted reading list means the
loop is still running (no shutdown yet). -/
def engineRun (msgs : List Msg) (topicNum usersCnt : Nat) : List Nat → List EngEvent
  | [] => []
  | e :: rest =>
      if 60 < tleft e then .turn :: engineRun msgs topicNum usersCnt rest
      else [shutdownEvent msgs topicNum usersCnt]

theorem engineRun_split (msgs : List Msg) (tn uc : Nat) (e0 : Nat) (post : List Nat)
    (he0 : tleft e0 ≤ 60) :
    ∀ pre : List Nat, (∀ e ∈ pre, 60 < tleft e) →
      engineRun msgs tn uc (pre ++ e0 :: post) =
        pre.map (fun _ => EngEvent.turn) ++ [shutdownEvent msgs tn uc] := by
  intro pre
  induction pre with
  | nil =>
    intro _
    show engineRun msgs tn uc (e0 :: post) = _
    unfold engineRun
    rw [if_neg (by omega)]
    rfl
  | cons e pre ih =>
    intro hpre
    have he : 60 < tleft e := hpre e (List.mem_cons_self _ _)
    show engineRun msgs tn uc (e :: (pre ++ e0 :: post)) = _
    unfold engineRun
    rw [if_pos he, ih (fun x hx => hpre x (List.mem_cons_of_mem e hx))]
    rfl

theorem filter_isShutdown_turns (msgs : List Msg) (tn uc : Nat) :
    ∀ pre : List Nat,
      (pre.map (fun _ => EngEvent.turn) ++ [shutdownEvent msgs tn uc]).filter isShutdown =
        [shutdownEvent msgs tn uc] := by
  intro pre
  induction pre with
  | nil => simp [List.filter_cons, shutdownEvent, isShutdown]
  | cons e t ih => simpa [List.filter_cons, isShutdown] using ih

/-- Claim C9: with the 21300-second budget, an elapsed time of 21241 seconds
leaves `tleft = 59 ≤ 60`, so at that loop boundary no new turn begins; the
run up to the first such boundary is exactly the earlier turns followed by
one shutdown event carrying the message/topic/participant counts, that
shutdown is the last event, and it occurs exactly once. -/
theorem C9_shutdown_at_budget (msgs : List Msg) (tn uc : Nat)
    (pre post : List Nat) (e0 : Nat)
    (hpre : ∀ e ∈ pre, 60 < tleft e) (he0 : tleft e0 ≤ 60) :
    engineRun msgs tn uc (pre ++ e0 :: post) =
      pre.map (fun _ => EngEvent.turn) ++ [shutdownEvent msgs tn uc] ∧
    ((engineRun msgs tn uc (pre ++ e0 :: post)).filter isShutdown).length = 1 ∧
    (engineRun msgs tn uc (pre ++ e0 :: post)).getLast? =
      some (shutdownEvent msgs tn uc) ∧
    tleft 21241 = 59 ∧ ¬ (60 < tleft 21241) := by
  have hrun := engineRun_split msgs tn uc e0 post he0 pre hpre
  refine ⟨hrun, ?_, ?_, by decide, by decide⟩
  · rw [hrun, filter_isShutdown_turns]
    rfl
  · rw [hrun]
    exact List.getLast?_concat _

/-- Claim C9, witness: boundary readings at 0 s and 100 s elapsed run turns;
the boundary at 21241 s elapsed (59 s left on the 21300 s budget) emits the
single shutdown event with the counts of the concrete message list. -/
theorem C9_shutdown_at_budget_witness :
    engineRun [⟨"message", "Nova", "hi"⟩, ⟨"user", "Ana", "yo"⟩] 3 1
        ([0, 100] ++ 21241 :: [21300]) =
      [EngEvent.turn, EngEvent.turn,
       shutdownEvent [⟨"message", "Nova", "hi"⟩, ⟨"user", "Ana", "yo"⟩] 3 1] ∧
    tleft 21241 = 59 := by
  have h := C9_shutdown_at_budget [⟨"message", "Nova", "hi"⟩, ⟨"user", "Ana", "yo"⟩]
    3 1 [0, 100] [21300] 21241 (by decide) (by decide)
  exact ⟨h.1, h.2.2.2.1⟩

/-! ### Join (`join`, server.py 19-23, 350-371)

`join` computes `name = (data.get("name") or "").strip()[:20]`, rejects an
empty result with a 400 error before any state mutation, and otherwise
assigns a fresh id, takes `USER_COLORS[color_index % len(USER_COLORS)]`,
increments the global `color_index`, adds the user to the roster and appends
a system message.  The uuid is modelled as a supplied fresh id. -/

/-- server.py 19-23: the fixed round-robin color palette. -/
def USER_COLORS : List String :=
  ["#ff9800", "#e91e63", "#9c27b0", "#03a9f4",
   "#4caf50", "#ff5722", "#00bcd4", "#cddc39",
   "#f44336", "#3f51b5", "#8bc34a", "#795548"]

/-- Python `str.strip()`: remove leading and trailing whitespace. -/
def stripWs (l : List Char) : List Char :=
  ((l.dropWhile pyIsSpace).reverse.dropWhile pyIsSpace).reverse

/-- A roster entry (server.py 362): id, display name, assigned color. -/
structure UserRec where
  uid : String
  name : String
  color : String
deriving DecidableEq

/-- The server-side state touched by `join`: roster, message sequence, and
the global `color_index` counter. -/
structure SrvState where
  users : List UserRec
  messages : List Msg
  colorIndex : Nat
deriving DecidableEq

/-- server.py 350-371: validate the stripped, length-capped name; on failure
return the error with the state untouched; on success assign the next
round-robin palette color, bump `color_index`, extend the roster and append
the join system message, returning the new id and color. -/
def join (rawName : List Char) (uid : String) (s : SrvState) :
    SrvState × Except String (String × String) :=
  let name := (stripWs rawName).take 20
  if name.isEmpty then (s, .error "name required")
  else
    let color := USER_COLORS.getD (s.colorIndex % USER_COLORS.length) ""
    ({ users := s.users ++ [⟨uid, String.mk name, color⟩],
       messages := s.messages ++ [⟨"system", "", String.mk name ++ " joined the debate"⟩],
       colorIndex := s.colorIndex + 1 },
     .ok (uid, color))

theorem userColors_getD_inj :
    ∀ i j : Fin 12, i ≠ j →
      USER_COLORS.getD i.val "" ≠ USER_COLORS.getD j.val "" := by
  decide

/-- Claim C10: `join` with a name that strips to empty (empty or
all-whitespace input) is rejected with the error and leaves roster, message
sequence and color counter unchanged; `join` with a name surviving the strip
returns the supplied fresh participant id together with the next round-robin
palette color, and — as long as the colors handed out so far are the
round-robin prefix and the palette has not wrapped — that color differs from
every color already assigned to a joined participant. -/
theorem C10_join_validation_and_colors (rawName : List Char) (uid : String)
    (s : SrvState) :
    ((∀ c ∈ rawName, pyIsSpace c = true) →
       join rawName uid s = (s, .error "name required")) ∧
    ((stripWs rawName).take 20 ≠ [] →
       (join rawName uid s).2 =
         .ok (uid, USER_COLORS.getD (s.colorIndex % USER_COLORS.length) "") ∧
       (s.users.map (fun u => u.color) =
          (List.range s.colorIndex).map (fun i => USER_COLORS.getD (i % USER_COLORS.length) "") →
        s.colorIndex < USER_COLORS.length →
        USER_COLORS.getD (s.colorIndex % USER_COLORS.length) "" ∉
          s.users.map (fun u => u.color))) := by
  constructor
  · intro hsp
    have hstrip : stripWs rawName = [] := by
      unfold stripWs
      have h1 : rawName.dropWhile pyIsSpace = [] := List.dropWhile_eq_nil_iff.mpr hsp
      rw [h1]
      rfl
    unfold join
    rw [hstrip]
    rfl
  · intro hne
    have hemp : ((stripWs rawName).take 20).isEmpty = false := by
      cases hq : ((stripWs rawName).take 20).isEmpty
      · rfl
      · exact absurd (List.isEmpty_iff.mp hq) hne
    constructor
    · unfold join
      dsimp only
      rw [hemp]
      rfl
    · intro hinv hlt
      intro hmem
      rw [hinv] at hmem
      obtain ⟨i, hi, hieq⟩ := List.mem_map.mp hmem
      have hilt : i < s.colorIndex := List.mem_range.mp hi
      have hi12 : i < 12 := lt_trans hilt hlt
      have hn12 : s.colorIndex < 12 := hlt
      have himod : i % USER_COLORS.length = i := Nat.mod_eq_of_lt hi12
      have hnmod : s.colorIndex % USER_COLORS.length = s.colorIndex :=
        Nat.mod_eq_of_lt hn12
      rw [himod, hnmod] at hieq
      exact userColors_getD_inj ⟨i, hi12⟩ ⟨s.colorIndex, hn12⟩
        (by simp [Fin.ext_iff]; omega) hieq

/-- Claim C10, witness: an all-whitespace name is rejected with the state
untouched, while joining `"Ana"` with one prior participant returns the
fresh id and palette color 1, distinct from the single assigned color. -/
theorem C10_join_validation_and_colors_witness :
    join [' ', ' '] "u1" ⟨[⟨"u0", "Bo", "#ff9800"⟩], [], 1⟩ =
      (⟨[⟨"u0", "Bo", "#ff9800"⟩], [], 1⟩, .error "name required") ∧
    (join ['A', 'n', 'a'] "u1" ⟨[⟨"u0", "Bo", "#ff9800"⟩], [], 1⟩).2 =
      .ok ("u1", "#e91e63") ∧
    ("#e91e63" : String) ∉
      ([⟨"u0", "Bo", "#ff9800"⟩] : List UserRec).map (fun u => u.color) := by
  have h1 := (C10_join_validation_and_colors [' ', ' '] "u1"
    ⟨[⟨"u0", "Bo", "#ff9800"⟩], [], 1⟩).1 (by decide)
  have h2 := (C10_join_validation_and_colors ['A', 'n', 'a'] "u1"
    ⟨[⟨"u0", "Bo", "#ff9800"⟩], [], 1⟩).2 (by decide)
  exact ⟨h1, h2.1, h2.2 (by decide) (by decide)⟩

end Agora
